import Mathlib

/-!
# Verification of the SipHash core (`src/crypto/sip.rs`)

A shallow embedding of the streaming SipHash implementation: the four-lane
`State`, the `compress!` ARX round, the round-count variants (`Sip13Rounds`,
`Sip24Rounds`), and the streaming `HashBase` operations `new_with_keys`,
`short_write`, `write`, `write_u8`, `write_usize` and `finish`.

Machine integers are modelled as `Nat`: `u64` arithmetic reduces modulo
`2 ^ 64` exactly where the Rust code wraps (`wrapping_add`, `rotate_left`,
the `as u64` cast); `usize` is modelled as a 64-bit little-endian target
(the release-mode semantics of `self.length += len` wrap modulo `2 ^ 64`).
Byte buffers are `List Nat`; an in-range element of a real buffer is `< 256`,
and out-of-range loads (never exercised by the code, which guards them with
`debug_assert!`) read as `0`.
-/

namespace SipRs

/-- The four 64-bit lanes, in the declaration order of `struct State`
(`v0, v2, v1, v3`). -/
structure State where
  v0 : Nat
  v2 : Nat
  v1 : Nat
  v3 : Nat
deriving DecidableEq

/-- `u64::rotate_left` for a 64-bit value: for `x < 2 ^ 64` and `0 < n < 64`
this is the exact bit rotation. -/
def rotl (x n : Nat) : Nat :=
  ((x <<< n) % 2 ^ 64) ||| ((x % 2 ^ 64) >>> (64 - n))

/-- The `compress!` macro body: one SipRound, all additions wrapping. -/
def compress (s : State) : State :=
  let v0 := (s.v0 + s.v1) % 2 ^ 64
  let v1 := rotl s.v1 13
  let v1 := v1 ^^^ v0
  let v0 := rotl v0 32
  let v2 := (s.v2 + s.v3) % 2 ^ 64
  let v3 := rotl s.v3 16
  let v3 := v3 ^^^ v2
  let v0 := (v0 + v3) % 2 ^ 64
  let v3 := rotl v3 21
  let v3 := v3 ^^^ v0
  let v2 := (v2 + v1) % 2 ^ 64
  let v1 := rotl v1 17
  let v1 := v1 ^^^ v2
  let v2 := rotl v2 32
  { v0 := v0, v2 := v2, v1 := v1, v3 := v3 }

/-- The two `Sip` marker types: `Sip13Rounds` and `Sip24Rounds`. -/
inductive Variant
  | sip13
  | sip24
deriving DecidableEq

/-- `Sip::c_rounds`: the compression rounds run per message word. -/
def Variant.c_rounds : Variant → State → State
  | .sip13, s => compress s
  | .sip24, s => compress (compress s)

/-- `Sip::d_rounds`: the finalization rounds. -/
def Variant.d_rounds : Variant → State → State
  | .sip13, s => compress (compress (compress s))
  | .sip24, s => compress (compress (compress (compress s)))

/-- `struct HashBase<S>` (the `PhantomData` marker is passed separately as a
`Variant` argument to each operation). -/
structure HashBase where
  k0 : Nat
  k1 : Nat
  length : Nat
  state : State
  tail : Nat
  ntail : Nat
deriving DecidableEq

/-- `HashBase::reset` (leaves `tail` untouched, exactly as the source does). -/
def reset (h : HashBase) : HashBase :=
  { h with
    length := 0
    state :=
      { v0 := h.k0 ^^^ 0x736f6d6570736575
        v2 := h.k0 ^^^ 0x6c7967656e657261
        v1 := h.k1 ^^^ 0x646f72616e646f6d
        v3 := h.k1 ^^^ 0x7465646279746573 }
    ntail := 0 }

/-- `HashBase::new_with_keys` (also the body of `SipHasher24::new_with_keys`
and `SipHasher13::new_with_keys`, which merely wrap it). -/
def new_with_keys (k0 k1 : Nat) : HashBase :=
  reset
    { k0 := k0, k1 := k1, length := 0
      state := { v0 := 0, v2 := 0, v1 := 0, v3 := 0 }
      tail := 0, ntail := 0 }

/-- A byte read from a buffer; the source's `get_unchecked` is only reached
in-bounds (guarded by `debug_assert!`), out-of-range reads are modelled as 0. -/
def byteAt (buf : List Nat) (i : Nat) : Nat :=
  buf.getD i 0

/-- `load_int_le!(buf, i, u16)`: two bytes, little-endian. -/
def load16_le (buf : List Nat) (i : Nat) : Nat :=
  byteAt buf i ||| byteAt buf (i + 1) <<< 8

/-- `load_int_le!(buf, i, u32)`: four bytes, little-endian. -/
def load32_le (buf : List Nat) (i : Nat) : Nat :=
  byteAt buf i ||| byteAt buf (i + 1) <<< 8 |||
    byteAt buf (i + 2) <<< 16 ||| byteAt buf (i + 3) <<< 24

/-- `load_int_le!(buf, i, u64)`: eight bytes, little-endian. -/
def load64_le (buf : List Nat) (i : Nat) : Nat :=
  byteAt buf i ||| byteAt buf (i + 1) <<< 8 |||
    byteAt buf (i + 2) <<< 16 ||| byteAt buf (i + 3) <<< 24 |||
    byteAt buf (i + 4) <<< 32 ||| byteAt buf (i + 5) <<< 40 |||
    byteAt buf (i + 6) <<< 48 ||| byteAt buf (i + 7) <<< 56

/-- `u8to64_le`: load up to 7 bytes little-endian, by a 4/2/1-byte chunk
cascade exactly as in the source. -/
def u8to64_le (buf : List Nat) (start len : Nat) : Nat :=
  let i := 0
  let out := 0
  let oi : Nat × Nat :=
    if i + 3 < len then (load32_le buf (start + i), i + 4) else (out, i)
  let oi : Nat × Nat :=
    if oi.2 + 1 < len then
      (oi.1 ||| load16_le buf (start + oi.2) <<< (oi.2 * 8), oi.2 + 2)
    else oi
  let oi : Nat × Nat :=
    if oi.2 < len then
      (oi.1 ||| byteAt buf (start + oi.2) <<< (oi.2 * 8), oi.2 + 1)
    else oi
  oi.1

/-- The repeated word-injection pattern
`v3 ^= m; S::c_rounds(&mut state); v0 ^= m` (it appears verbatim in
`short_write`, `write` and `finish`). -/
def cStep (v : Variant) (st : State) (m : Nat) : State :=
  let st := { st with v3 := st.v3 ^^^ m }
  let st := v.c_rounds st
  { st with v0 := st.v0 ^^^ m }

/-- `HashBase::short_write` (only called with `msg.len() <= 8`). -/
def short_write (v : Variant) (h : HashBase) (msg : List Nat) : HashBase :=
  let length := msg.length
  let newlen := (h.length + length) % 2 ^ 64
  let needed := 8 - h.ntail
  let fill := min length needed
  if fill = 8 then
    let tail := load64_le msg 0
    let st := cStep v h.state tail
    let ntail := length - needed
    { h with length := newlen, state := st, ntail := ntail
             tail := u8to64_le msg needed ntail }
  else
    let tail := h.tail ||| u8to64_le msg 0 fill <<< (8 * h.ntail)
    if length < needed then
      { h with length := newlen, tail := tail, ntail := h.ntail + length }
    else
      let st := cStep v h.state tail
      let ntail := length - needed
      { h with length := newlen, state := st, ntail := ntail
               tail := u8to64_le msg needed ntail }

/-- The word loop of `Hasher::write`:
`while i < stop { mi = load64(data, i); inject; i += 8 }`, returning the
final state and loop index (`stop` is the source's `len - left`). -/
def sipLoop (v : Variant) (data : List Nat) (stop : Nat) (st : State)
    (i : Nat) : State × Nat :=
  if i < stop then
    sipLoop v data stop (cStep v st (load64_le data i)) (i + 8)
  else
    (st, i)
termination_by stop - i
decreasing_by omega

/-- The part of `Hasher::write` after the tail flush: consume whole 8-byte
words from index `needed` on, then store the `left` trailing bytes. -/
def writeWords (v : Variant) (h : HashBase) (data : List Nat)
    (needed : Nat) : HashBase :=
  let len := data.length - needed
  let left := len &&& 0x7
  let si := sipLoop v data (len - left) h.state needed
  { h with state := si.1, tail := u8to64_le data si.2 left, ntail := left }

/-- `<HashBase as Hasher>::write`. -/
def write (v : Variant) (h : HashBase) (data : List Nat) : HashBase :=
  let length := data.length
  let newlen := (h.length + length) % 2 ^ 64
  if h.ntail ≠ 0 then
    let needed := 8 - h.ntail
    let tail := h.tail ||| u8to64_le data 0 (min length needed) <<< (8 * h.ntail)
    if length < needed then
      { h with length := newlen, tail := tail, ntail := h.ntail + length }
    else
      writeWords v
        { h with length := newlen, state := cStep v h.state tail
                 tail := tail, ntail := 0 }
        data needed
  else
    writeWords v { h with length := newlen } data 0

/-- `<HashBase as Hasher>::write_u8`. -/
def write_u8 (v : Variant) (h : HashBase) (b : Nat) : HashBase :=
  short_write v h [b]

/-- The byte image of a `usize` on a 64-bit little-endian target, as read by
`slice::from_raw_parts(&i as *const usize as *const u8, 8)`. -/
def usizeBytes (i : Nat) : List Nat :=
  (List.range 8).map fun j => i / 2 ^ (8 * j) % 256

/-- `<HashBase as Hasher>::write_usize`. -/
def write_usize (v : Variant) (h : HashBase) (i : Nat) : HashBase :=
  short_write v h (usizeBytes i)

/-- `<HashBase as Hasher>::finish` (pure: the Rust function takes `&self`). -/
def finish (v : Variant) (h : HashBase) : Nat :=
  let b := ((h.length % 2 ^ 64) &&& 0xff) <<< 56 ||| h.tail
  let st := cStep v h.state b
  let st := { st with v2 := st.v2 ^^^ 0xff }
  let st := v.d_rounds st
  st.v0 ^^^ st.v1 ^^^ st.v2 ^^^ st.v3

/-- The result of one call of `fn finish(&self) -> u64` on a hasher object:
the digest together with the state of the object after the call, which is
unchanged because the receiver is a shared reference (`&self`) and the
function body reads `self` only through a local copy of `self.state`. -/
def finishCall (v : Variant) (h : HashBase) : Nat × HashBase :=
  (finish v h, h)

/-- The value of the `n` bytes `buf[start], …, buf[start+n-1]` read as a
little-endian integer. -/
def leval (buf : List Nat) : Nat → Nat → Nat
  | _, 0 => 0
  | start, n + 1 => byteAt buf start ||| leval buf (start + 1) n <<< 8

/-- Feed one byte: extend the tail, and when the 8th byte arrives compress
the completed little-endian word. -/
def writeByte (v : Variant) (h : HashBase) (b : Nat) : HashBase :=
  let tail := h.tail ||| b <<< (8 * h.ntail)
  let newlen := (h.length + 1) % 2 ^ 64
  if h.ntail = 7 then
    { h with length := newlen, state := cStep v h.state tail
             tail := 0, ntail := 0 }
  else
    { h with length := newlen, tail := tail, ntail := h.ntail + 1 }

/-- Run `q` full 8-byte words of `data` starting at index `i` through the
compression step. -/
def wordsFrom (v : Variant) (data : List Nat) : State → Nat → Nat → State
  | st, _, 0 => st
  | st, i, q + 1 => wordsFrom v data (cStep v st (leval data i 8)) (i + 8) q

/-- Well-formedness of a hasher state: a partial tail of fewer than 8 bytes,
a clean tail word when no byte is buffered, and a 64-bit length counter.
Every reachable state of the Rust hasher satisfies this. -/
def Wf (h : HashBase) : Prop :=
  h.ntail < 8 ∧ (h.ntail = 0 → h.tail = 0) ∧ h.length < 2 ^ 64

instance (h : HashBase) : Decidable (Wf h) := by
  unfold Wf; infer_instance

/-- The tail-buffer invariant: fewer than 8 buffered bytes, and all bits of
the tail word at positions `8 * ntail` and above are zero. -/
def Inv (h : HashBase) : Prop :=
  h.ntail < 8 ∧ h.tail < 2 ^ (8 * h.ntail)

instance (h : HashBase) : Decidable (Inv h) := by
  unfold Inv; infer_instance

/-- The published SipHash-2-4 reference digests for the key pair
(`0x0706050403020100`, `0x0f0e0d0c0b0a0908`) over the inputs
`[0, 1, …, n-1]`, `n = 0 … 63` (the 64-bit little-endian readings of the
rows of the reference implementation's test-vector table). -/
def sipRefVectors : List Nat :=
  [0x726fdb47dd0e0e31, 0x74f839c593dc67fd, 0x0d6c8009d9a94f5a,
   0x85676696d7fb7e2d, 0xcf2794e0277187b7, 0x18765564cd99a68d,
   0xcbc9466e58fee3ce, 0xab0200f58b01d137, 0x93f5f5799a932462,
   0x9e0082df0ba9e4b0, 0x7a5dbbc594ddb9f3, 0xf4b32f46226bada7,
   0x751e8fbc860ee5fb, 0x14ea5627c0843d90, 0xf723ca908e7af2ee,
   0xa129ca6149be45e5, 0x3f2acc7f57c29bdb, 0x699ae9f52cbe4794,
   0x4bc1b3f0968dd39c, 0xbb6dc91da77961bd, 0xbed65cf21aa2ee98,
   0xd0f2cbb02e3b67c7, 0x93536795e3a33e88, 0xa80c038ccd5ccec8,
   0xb8ad50c6f649af94, 0xbce192de8a85b8ea, 0x17d835b85bbb15f3,
   0x2f2e6163076bcfad, 0xde4daaaca71dc9a5, 0xa6a2506687956571,
   0xad87a3535c49ef28, 0x32d892fad841c342, 0x7127512f72f27cce,
   0xa7f32346f95978e3, 0x12e0b01abb051238, 0x15e034d40fa197ae,
   0x314dffbe0815a3b4, 0x027990f029623981, 0xcadcd4e59ef40c4d,
   0x9abfd8766a33735c, 0x0e3ea96b5304a7d0, 0xad0c42d6fc585992,
   0x187306c89bc215a9, 0xd4a60abcf3792b95, 0xf935451de4f21df2,
   0xa9538f0419755787, 0xdb9acddff56ca510, 0xd06c98cd5c0975eb,
   0xe612a3cb9ecba951, 0xc766e62cfcadaf96, 0xee64435a9752fe72,
   0xa192d576b245165a, 0x0a8787bf8ecb74b2, 0x81b3e73d20b49b6f,
   0x7fa8220ba3b2ecea, 0x245731c13ca42499, 0xb78dbfaf3a8d83bd,
   0xea1ad565322a1a0b, 0x60e61c23a3795013, 0x6606d7e446282b93,
   0x6ca4ecb15c5f91e1, 0x9f626da15c9625f3, 0xe51b38608ef25f57,
   0x958a324ceb064572]

/-- The number of compression rounds per word (`c`). -/
def cCount : Variant → Nat
  | .sip13 => 1
  | .sip24 => 2

/-- The number of finalization rounds (`d`). -/
def dCount : Variant → Nat
  | .sip13 => 3
  | .sip24 => 4

/-- The ASCII bytes of the string `somepseudorandomlygeneratedbytes`. -/
def initString : List Nat :=
  [0x73, 0x6f, 0x6d, 0x65, 0x70, 0x73, 0x65, 0x75,
   0x64, 0x6f, 0x72, 0x61, 0x6e, 0x64, 0x6f, 0x6d,
   0x6c, 0x79, 0x67, 0x65, 0x6e, 0x65, 0x72, 0x61,
   0x74, 0x65, 0x64, 0x62, 0x79, 0x74, 0x65, 0x73]

/-- Modelled from the spec's words: the `i`-th 8-byte chunk of the constant
string read as a little-endian 64-bit word (the derivation the spec
asserts for the initialization constants). -/
def initWordLE (i : Nat) : Nat :=
  leval initString (8 * i) 8

/-- The `i`-th 8-byte chunk of the constant string read as a big-endian
64-bit word (the derivation that actually yields the code's constants). -/
def initWordBE (i : Nat) : Nat :=
  ((initString.drop (8 * i)).take 8).foldl (fun acc b => acc * 256 + b) 0

theorem shiftLeft_or_distrib (a b n : Nat) :
    (a ||| b) <<< n = a <<< n ||| b <<< n := by
  apply Nat.eq_of_testBit_eq
  intro i
  simp [Nat.testBit_or, Nat.testBit_shiftLeft, Bool.and_or_distrib_left]

theorem u8to64_le_eq (buf : List Nat) (start len : Nat) (h : len < 8) :
    u8to64_le buf start len = leval buf start len := by
  interval_cases len <;>
    simp [u8to64_le, leval, load32_le, load16_le, byteAt,
      shiftLeft_or_distrib, ← Nat.shiftLeft_add, Nat.or_assoc,
      Nat.add_assoc]

theorem load64_le_eq (buf : List Nat) (i : Nat) :
    load64_le buf i = leval buf i 8 := by
  simp [load64_le, leval, byteAt, shiftLeft_or_distrib,
    ← Nat.shiftLeft_add, Nat.or_assoc, Nat.add_assoc]

theorem byteAt_cons_succ (b : Nat) (bs : List Nat) (i : Nat) :
    byteAt (b :: bs) (i + 1) = byteAt bs i := rfl

theorem byteAt_drop (data : List Nat) (k i : Nat) :
    byteAt (data.drop k) i = byteAt data (k + i) := by
  induction data generalizing k i with
  | nil => cases k <;> rfl
  | cons b bs IH =>
    cases k with
    | zero => simp [byteAt]
    | succ k =>
      show byteAt (bs.drop k) i = byteAt (b :: bs) (k + 1 + i)
      rw [IH]
      have : k + 1 + i = (k + i) + 1 := by omega
      rw [this, byteAt_cons_succ]

theorem leval_cons (b : Nat) (bs : List Nat) (i : Nat) :
    ∀ n, leval (b :: bs) (i + 1) n = leval bs i n := by
  intro n
  induction n generalizing i with
  | zero => rfl
  | succ n IH => simp [leval, byteAt_cons_succ, IH]

theorem leval_drop (data : List Nat) (k : Nat) :
    ∀ n i, leval (data.drop k) i n = leval data (k + i) n := by
  intro n
  induction n with
  | zero => intro i; rfl
  | succ n IH =>
    intro i
    simp only [leval, byteAt_drop, IH]
    have : k + i + 1 = k + (i + 1) := by omega
    rw [this]

theorem byteAt_lt (data : List Nat) (i : Nat)
    (hb : ∀ b ∈ data, b < 256) : byteAt data i < 256 := by
  unfold byteAt List.getD
  cases hq : data.get? i with
  | none => simp
  | some b => simpa using hb b (List.get?_mem hq)

theorem leval_lt (data : List Nat) (hb : ∀ b ∈ data, b < 256) :
    ∀ n i, leval data i n < 2 ^ (8 * n) := by
  intro n
  induction n with
  | zero => intro i; simp [leval]
  | succ n IH =>
    intro i
    apply Nat.or_lt_two_pow
    · calc byteAt data i < 256 := byteAt_lt data i hb
        _ ≤ 2 ^ (8 * (n + 1)) := by
            have : (8 : Nat) ≤ 8 * (n + 1) := by omega
            calc (256 : Nat) = 2 ^ 8 := rfl
              _ ≤ 2 ^ (8 * (n + 1)) := Nat.pow_le_pow_right (by omega) this
    · rw [Nat.shiftLeft_eq]
      have h1 : leval data (i + 1) n < 2 ^ (8 * n) := IH (i + 1)
      calc leval data (i + 1) n * 2 ^ 8
          < 2 ^ (8 * n) * 2 ^ 8 := by
            exact mul_lt_mul_of_pos_right h1 (by positivity)
        _ = 2 ^ (8 * (n + 1)) := by rw [← Nat.pow_add]; ring_nf

theorem or_shift_step (t b X nt : Nat) :
    t ||| (b ||| X <<< 8) <<< (8 * nt) =
      (t ||| b <<< (8 * nt)) ||| X <<< (8 * (nt + 1)) := by
  rw [shiftLeft_or_distrib, ← Nat.shiftLeft_add]
  have e : 8 + 8 * nt = 8 * (nt + 1) := by ring
  rw [e, Nat.or_assoc]

/-- Closed form of the byte machine on an input too short to complete a
word: pure buffering. -/
theorem foldl_writeByte_small (v : Variant) :
    ∀ (data : List Nat) (h : HashBase), h.ntail + data.length < 8 →
      h.length < 2 ^ 64 →
      List.foldl (writeByte v) h data =
        { h with length := (h.length + data.length) % 2 ^ 64
                 tail := h.tail ||| leval data 0 data.length <<< (8 * h.ntail)
                 ntail := h.ntail + data.length } := by
  intro data
  induction data with
  | nil =>
    intro h hlen hL
    simp only [List.foldl_nil, List.length_nil, Nat.add_zero, leval,
      Nat.zero_shiftLeft, Nat.or_zero, Nat.mod_eq_of_lt hL]
  | cons b bs IH =>
    intro h hlen hL
    have hn7 : h.ntail ≠ 7 := by simp at hlen; omega
    simp only [List.foldl_cons]
    rw [show writeByte v h b =
        { h with length := (h.length + 1) % 2 ^ 64
                 tail := h.tail ||| b <<< (8 * h.ntail)
                 ntail := h.ntail + 1 } by
      simp only [writeByte, if_neg hn7]]
    rw [IH _ (by simp at hlen ⊢; omega) (Nat.mod_lt _ (by positivity))]
    simp only [List.length_cons, leval, byteAt, List.getD_cons_zero,
      leval_cons]
    congr 1
    · rw [Nat.mod_add_mod]
      congr 1
      omega
    · rw [or_shift_step]
    · omega

theorem leval_zero (buf : List Nat) (start : Nat) : leval buf start 0 = 0 :=
  rfl

theorem leval_succ (buf : List Nat) (start n : Nat) :
    leval buf start (n + 1) =
      byteAt buf start ||| leval buf (start + 1) n <<< 8 :=
  rfl

theorem byteAt_cons_zero (b : Nat) (bs : List Nat) : byteAt (b :: bs) 0 = b :=
  rfl

/-- Closed form of the byte machine up to completion of the pending word:
the first `8 - ntail` input bytes complete the buffered little-endian word,
which is compressed into the lanes; the fold continues from a clean tail. -/
theorem foldl_writeByte_flush (v : Variant) :
    ∀ (data : List Nat) (h : HashBase), h.ntail < 8 →
      8 - h.ntail ≤ data.length →
      List.foldl (writeByte v) h data =
        List.foldl (writeByte v)
          { h with length := (h.length + (8 - h.ntail)) % 2 ^ 64
                   state := cStep v h.state
                     (h.tail ||| leval data 0 (8 - h.ntail) <<< (8 * h.ntail))
                   tail := 0, ntail := 0 }
          (data.drop (8 - h.ntail)) := by
  intro data
  induction data with
  | nil =>
    intro h h8 hge
    simp at hge
    omega
  | cons b bs IH =>
    intro h h8 hge
    simp only [List.foldl_cons]
    by_cases hn7 : h.ntail = 7
    · rw [show writeByte v h b =
          { h with length := (h.length + 1) % 2 ^ 64
                   state := cStep v h.state (h.tail ||| b <<< (8 * h.ntail))
                   tail := 0, ntail := 0 } by
        simp only [writeByte, if_pos hn7]]
      have e : 8 - h.ntail = 0 + 1 := by omega
      rw [e, leval_succ, leval_zero, byteAt_cons_zero, List.drop_succ_cons,
        List.drop_zero, Nat.zero_shiftLeft, Nat.or_zero, Nat.zero_add]
    · rw [show writeByte v h b =
          { h with length := (h.length + 1) % 2 ^ 64
                   tail := h.tail ||| b <<< (8 * h.ntail)
                   ntail := h.ntail + 1 } by
        simp only [writeByte, if_neg hn7]]
      rw [IH _ (by simp; omega) (by simp at hge ⊢; omega)]
      dsimp only
      have e : 8 - h.ntail = (8 - (h.ntail + 1)) + 1 := by omega
      rw [e, leval_succ, byteAt_cons_zero, List.drop_succ_cons]
      rw [leval_cons]
      congr 1
      · congr 1
        · rw [Nat.mod_add_mod]
          congr 1
          omega
        · rw [or_shift_step]

theorem wordsFrom_drop (v : Variant) (data : List Nat) (k : Nat) :
    ∀ (q : Nat) (st : State) (i : Nat),
      wordsFrom v (data.drop k) st i q = wordsFrom v data st (k + i) q := by
  intro q
  induction q with
  | zero => intro st i; rfl
  | succ q IH =>
    intro st i
    show wordsFrom v (data.drop k) (cStep v st (leval (data.drop k) i 8)) (i + 8) q = _
    rw [leval_drop, IH]
    show _ = wordsFrom v data (cStep v st (leval data (k + i) 8)) (k + i + 8) q
    have e : k + (i + 8) = k + i + 8 := by omega
    rw [e]

/-- Closed form of the byte machine from a clean state (`ntail = 0`,
`tail = 0`): it compresses `⌊n/8⌋` full little-endian words and buffers the
`n % 8` trailing bytes. -/
theorem foldl_writeByte_run (v : Variant) (data : List Nat) (h : HashBase)
    (h0 : h.ntail = 0) (ht : h.tail = 0) (hL : h.length < 2 ^ 64) :
    List.foldl (writeByte v) h data =
      { h with length := (h.length + data.length) % 2 ^ 64
               state := wordsFrom v data h.state 0 (data.length / 8)
               tail := leval data (8 * (data.length / 8)) (data.length % 8)
               ntail := data.length % 8 } := by
  by_cases hlen : data.length < 8
  · rw [foldl_writeByte_small v data h (by omega) hL]
    have e1 : data.length / 8 = 0 := by omega
    have e2 : data.length % 8 = data.length := by omega
    rw [e1, e2, h0, ht]
    simp only [Nat.mul_zero, Nat.zero_or, Nat.mul_zero, Nat.shiftLeft_zero,
      Nat.zero_add, wordsFrom]
  · rw [foldl_writeByte_flush v data h (by omega) (by omega)]
    rw [h0, ht]
    have hd8 : (8 : Nat) - 0 = 8 := by omega
    rw [hd8]
    rw [foldl_writeByte_run v (data.drop 8)
      { h with length := (h.length + 8) % 2 ^ 64
               state := cStep v h.state (0 ||| leval data 0 8 <<< (8 * 0))
               tail := 0, ntail := 0 }
      rfl rfl (Nat.mod_lt _ (by positivity))]
    dsimp only
    have hq : (data.drop 8).length / 8 + 1 = data.length / 8 := by
      simp only [List.length_drop]; omega
    congr 1
    · rw [Nat.mod_add_mod]
      congr 1
      simp only [List.length_drop]
      omega
    · rw [wordsFrom_drop, ← hq]
      show _ = wordsFrom v data
          (cStep v h.state (leval data 0 8)) (0 + 8) ((data.drop 8).length / 8)
      simp only [Nat.mul_zero, Nat.shiftLeft_zero, Nat.zero_or, Nat.zero_add,
        Nat.add_zero]
    · rw [leval_drop]
      congr 1
      · simp only [List.length_drop]; omega
      · simp only [List.length_drop]; omega
    · simp only [List.length_drop]; omega
termination_by data.length
decreasing_by simp only [List.length_drop]; omega

/-- The word loop runs `⌈(stop - i)/8⌉` iterations from index `i`. -/
theorem sipLoop_eq (v : Variant) (data : List Nat) (stop : Nat) (st : State)
    (i : Nat) :
    sipLoop v data stop st i =
      (wordsFrom v data st i ((stop - i + 7) / 8),
       i + 8 * ((stop - i + 7) / 8)) := by
  rw [sipLoop]
  by_cases hlt : i < stop
  · rw [if_pos hlt]
    rw [sipLoop_eq v data stop (cStep v st (load64_le data i)) (i + 8)]
    have hq : (stop - i + 7) / 8 = (stop - (i + 8) + 7) / 8 + 1 := by omega
    rw [hq]
    show _ = (wordsFrom v data (cStep v st (leval data i 8)) (i + 8)
        ((stop - (i + 8) + 7) / 8), _)
    rw [load64_le_eq]
    congr 1
    omega
  · rw [if_neg hlt]
    have hq : (stop - i + 7) / 8 = 0 := by omega
    rw [hq]
    show (st, i) = (wordsFrom v data st i 0, i + 8 * 0)
    rw [Nat.mul_zero, Nat.add_zero]
    rfl
termination_by stop - i
decreasing_by omega

/-- `Hasher::write` agrees with folding the byte machine over the input, on
every well-formed hasher state. -/
theorem write_eq_foldl (v : Variant) (h : HashBase) (data : List Nat)
    (hw : Wf h) :
    write v h data = List.foldl (writeByte v) h data := by
  obtain ⟨h8, h0, hL⟩ := hw
  have hand : ∀ m : Nat, m &&& 0x7 = m % 8 := by
    intro m
    have e : (0x7 : Nat) = 2 ^ 3 - 1 := by norm_num
    rw [e, Nat.and_pow_two_sub_one_eq_mod]
  by_cases hnt : h.ntail = 0
  · rw [write, if_neg (by simp [hnt])]
    rw [writeWords]
    dsimp only
    rw [hand, sipLoop_eq]
    have hq : (data.length - 0 - (data.length - 0) % 8 - 0 + 7) / 8
        = data.length / 8 := by omega
    rw [hq]
    rw [foldl_writeByte_run v data h hnt (h0 hnt) hL]
    dsimp only
    rw [u8to64_le_eq _ _ _ (by omega)]
    simp only [Nat.zero_add, Nat.sub_zero]
  · rw [write, if_pos (by simp [hnt])]
    by_cases hshort : data.length < 8 - h.ntail
    · rw [if_pos hshort]
      have hmin : min data.length (8 - h.ntail) = data.length := by omega
      rw [hmin]
      rw [u8to64_le_eq _ _ _ (by omega)]
      rw [foldl_writeByte_small v data h (by omega) hL]
    · rw [if_neg hshort]
      rw [writeWords]
      dsimp only
      rw [hand, sipLoop_eq]
      have hq : (data.length - (8 - h.ntail) -
            (data.length - (8 - h.ntail)) % 8 - (8 - h.ntail) + 7) / 8
          = (data.length - (8 - h.ntail)) / 8 := by omega
      rw [hq]
      rw [foldl_writeByte_flush v data h h8 (by omega)]
      rw [foldl_writeByte_run v (data.drop (8 - h.ntail))
        { h with length := (h.length + (8 - h.ntail)) % 2 ^ 64
                 state := cStep v h.state
                   (h.tail ||| leval data 0 (8 - h.ntail) <<< (8 * h.ntail))
                 tail := 0, ntail := 0 }
        rfl rfl (Nat.mod_lt _ (by positivity))]
      dsimp only
      rw [wordsFrom_drop, leval_drop]
      have hmin : min data.length (8 - h.ntail) = 8 - h.ntail := by omega
      rw [hmin]
      rw [u8to64_le_eq _ _ _ (by omega)]
      rw [u8to64_le_eq _ _ _ (by omega)]
      simp only [List.length_drop, Nat.add_zero]
      congr 1
      rw [Nat.mod_add_mod]
      congr 1
      omega

/-- `HashBase::short_write` also agrees with the byte machine on its
contract domain (`msg.len() <= 8`). -/
theorem short_write_eq_foldl (v : Variant) (h : HashBase) (msg : List Nat)
    (hw : Wf h) (hm : msg.length ≤ 8) :
    short_write v h msg = List.foldl (writeByte v) h msg := by
  obtain ⟨h8, h0, hL⟩ := hw
  by_cases hfill : min msg.length (8 - h.ntail) = 8
  · have hnt0 : h.ntail = 0 := by omega
    have hlen8 : msg.length = 8 := by omega
    rw [short_write, if_pos hfill]
    dsimp only
    rw [foldl_writeByte_flush v msg h (by omega) (by omega)]
    rw [List.drop_eq_nil_of_le (by omega), List.foldl_nil]
    rw [hnt0, h0 hnt0, hlen8]
    rw [load64_le_eq, u8to64_le_eq _ _ _ (by omega)]
    norm_num
    exact leval_zero msg 8
  · rw [short_write, if_neg hfill]
    dsimp only
    by_cases hslen : msg.length < 8 - h.ntail
    · rw [if_pos hslen]
      have hmin : min msg.length (8 - h.ntail) = msg.length := by omega
      rw [hmin, u8to64_le_eq _ _ _ (by omega)]
      rw [foldl_writeByte_small v msg h (by omega) hL]
    · rw [if_neg hslen]
      have hnt : h.ntail ≠ 0 := by
        intro hz
        apply hfill
        omega
      rw [foldl_writeByte_flush v msg h (by omega) (by omega)]
      rw [foldl_writeByte_run v (msg.drop (8 - h.ntail))
        { h with length := (h.length + (8 - h.ntail)) % 2 ^ 64
                 state := cStep v h.state
                   (h.tail ||| leval msg 0 (8 - h.ntail) <<< (8 * h.ntail))
                 tail := 0, ntail := 0 }
        rfl rfl (Nat.mod_lt _ (by positivity))]
      dsimp only
      simp only [List.length_drop]
      have e1 : (msg.length - (8 - h.ntail)) / 8 = 0 := by omega
      have e2 : (msg.length - (8 - h.ntail)) % 8
          = msg.length - (8 - h.ntail) := by omega
      rw [e1, e2, Nat.mul_zero, leval_drop]
      have hmin : min msg.length (8 - h.ntail) = 8 - h.ntail := by omega
      rw [hmin]
      rw [u8to64_le_eq _ _ _ (by omega), u8to64_le_eq _ _ _ (by omega)]
      simp only [Nat.add_zero, wordsFrom]
      congr 1
      rw [Nat.mod_add_mod]
      congr 1
      omega

theorem writeByte_wf (v : Variant) (h : HashBase) (b : Nat) (hw : Wf h) :
    Wf (writeByte v h b) := by
  obtain ⟨h8, h0, _⟩ := hw
  unfold writeByte Wf
  by_cases hn7 : h.ntail = 7
  · rw [if_pos hn7]
    refine ⟨by norm_num, fun _ => rfl, Nat.mod_lt _ (by positivity)⟩
  · rw [if_neg hn7]
    refine ⟨by simp; omega, by simp, Nat.mod_lt _ (by positivity)⟩

theorem foldl_writeByte_wf (v : Variant) :
    ∀ (data : List Nat) (h : HashBase), Wf h →
      Wf (List.foldl (writeByte v) h data) := by
  intro data
  induction data with
  | nil => intro h hw; exact hw
  | cons b bs IH =>
    intro h hw
    exact IH _ (writeByte_wf v h b hw)

theorem write_wf (v : Variant) (h : HashBase) (data : List Nat) (hw : Wf h) :
    Wf (write v h data) := by
  rw [write_eq_foldl v h data hw]
  exact foldl_writeByte_wf v data h hw

theorem new_with_keys_wf (k0 k1 : Nat) : Wf (new_with_keys k0 k1) := by
  refine ⟨?_, ?_, ?_⟩ <;> simp [new_with_keys, reset, Wf]

/-- Folding `write` over a chunk list is the byte machine on the
concatenation. -/
theorem foldl_write_join (v : Variant) :
    ∀ (chunks : List (List Nat)) (h : HashBase), Wf h →
      List.foldl (write v) h chunks =
        List.foldl (writeByte v) h chunks.flatten := by
  intro chunks
  induction chunks with
  | nil => intro h _; rfl
  | cons c cs IH =>
    intro h hw
    simp only [List.foldl_cons, List.flatten_cons]
    rw [IH _ (write_wf v h c hw), write_eq_foldl v h c hw,
      ← List.foldl_append]

theorem and_seven (m : Nat) : m &&& 0x7 = m % 8 := by
  have e : (0x7 : Nat) = 2 ^ 3 - 1 := by norm_num
  rw [e, Nat.and_pow_two_sub_one_eq_mod]

theorem tail_or_bound (t X nt m : Nat) (ht : t < 2 ^ (8 * nt))
    (hx : X < 2 ^ (8 * m)) :
    t ||| X <<< (8 * nt) < 2 ^ (8 * (nt + m)) := by
  apply Nat.or_lt_two_pow
  · exact lt_of_lt_of_le ht
      (Nat.pow_le_pow_right (by omega) (by omega))
  · rw [Nat.shiftLeft_eq]
    calc X * 2 ^ (8 * nt) < 2 ^ (8 * m) * 2 ^ (8 * nt) :=
          mul_lt_mul_of_pos_right hx (by positivity)
      _ = 2 ^ (8 * (nt + m)) := by rw [← Nat.pow_add]; ring_nf

theorem write_inv (v : Variant) (h : HashBase) (data : List Nat)
    (hi : Inv h) (hb : ∀ b ∈ data, b < 256) : Inv (write v h data) := by
  obtain ⟨h8, htb⟩ := hi
  rw [write]
  by_cases hnt : h.ntail = 0
  · rw [if_neg (by simp [hnt]), writeWords]
    dsimp only
    rw [and_seven]
    refine ⟨Nat.mod_lt _ (by norm_num), ?_⟩
    rw [u8to64_le_eq _ _ _ (Nat.mod_lt _ (by norm_num))]
    exact leval_lt data hb _ _
  · rw [if_pos (by simp [hnt])]
    by_cases hs : data.length < 8 - h.ntail
    · rw [if_pos hs]
      have hmin : min data.length (8 - h.ntail) = data.length := by omega
      refine ⟨by simp; omega, ?_⟩
      show h.tail ||| u8to64_le data 0 (min data.length (8 - h.ntail)) <<<
          (8 * h.ntail) < _
      rw [hmin, u8to64_le_eq _ _ _ (by omega)]
      exact tail_or_bound _ _ _ _ htb (leval_lt data hb _ _)
    · rw [if_neg hs, writeWords]
      dsimp only
      rw [and_seven]
      refine ⟨Nat.mod_lt _ (by norm_num), ?_⟩
      rw [u8to64_le_eq _ _ _ (Nat.mod_lt _ (by norm_num))]
      exact leval_lt data hb _ _

theorem short_write_inv (v : Variant) (h : HashBase) (msg : List Nat)
    (hi : Inv h) (hb : ∀ b ∈ msg, b < 256) (hm : msg.length ≤ 8) :
    Inv (short_write v h msg) := by
  obtain ⟨h8, htb⟩ := hi
  rw [short_write]
  by_cases hfill : min msg.length (8 - h.ntail) = 8
  · rw [if_pos hfill]
    dsimp only
    refine ⟨by simp; omega, ?_⟩
    rw [u8to64_le_eq _ _ _ (by omega)]
    exact leval_lt msg hb _ _
  · rw [if_neg hfill]
    dsimp only
    by_cases hs : msg.length < 8 - h.ntail
    · rw [if_pos hs]
      have hmin : min msg.length (8 - h.ntail) = msg.length := by omega
      refine ⟨by simp; omega, ?_⟩
      show h.tail ||| u8to64_le msg 0 (min msg.length (8 - h.ntail)) <<<
          (8 * h.ntail) < _
      rw [hmin, u8to64_le_eq _ _ _ (by omega)]
      exact tail_or_bound _ _ _ _ htb (leval_lt msg hb _ _)
    · rw [if_neg hs]
      refine ⟨by simp; omega, ?_⟩
      show u8to64_le msg (8 - h.ntail) (msg.length - (8 - h.ntail)) < _
      rw [u8to64_le_eq _ _ _ (by omega)]
      exact leval_lt msg hb _ _

theorem usizeBytes_lt (i : Nat) : ∀ b ∈ usizeBytes i, b < 256 := by
  intro b hbmem
  simp only [usizeBytes, List.mem_map, List.mem_range] at hbmem
  obtain ⟨j, _, hj⟩ := hbmem
  rw [← hj]
  exact Nat.mod_lt _ (by norm_num)

/-- C1: Incremental equivalence — for every key pair, every variant, and
every way of splitting a byte sequence into consecutive chunks fed through
separate `write` calls, the digest returned by `finish` equals the digest
obtained by hashing the whole sequence with a single `write` call on a
fresh hasher with the same key and variant. -/
theorem incremental_equivalence (v : Variant) (k0 k1 : Nat)
    (chunks : List (List Nat)) :
    finish v (List.foldl (write v) (new_with_keys k0 k1) chunks) =
      finish v (write v (new_with_keys k0 k1) chunks.flatten) := by
  rw [foldl_write_join v chunks _ (new_with_keys_wf k0 k1),
    write_eq_foldl v _ _ (new_with_keys_wf k0 k1)]

theorem sip24_reference_vectors_aux : ∀ n, n < 64 →
    finish .sip24
      (List.foldl (writeByte .sip24)
        (new_with_keys 0x0706050403020100 0x0f0e0d0c0b0a0908)
        (List.range n)) = sipRefVectors.getD n 0 := by
  decide

/-- C2: Reference test vectors — the 2-4 variant constructed with
`new_with_keys(0x0706050403020100, 0x0f0e0d0c0b0a0908)`, hashing
`[0, 1, …, n-1]` for every `n` in `0..64`, yields exactly the published
SipHash-2-4 reference digest for length `n`. -/
theorem sip24_reference_vectors : ∀ n, n < 64 →
    finish .sip24
      (write .sip24
        (new_with_keys 0x0706050403020100 0x0f0e0d0c0b0a0908)
        (List.range n)) = sipRefVectors.getD n 0 := by
  intro n hn
  rw [write_eq_foldl _ _ _ (new_with_keys_wf _ _)]
  exact sip24_reference_vectors_aux n hn

theorem sip24_reference_vectors_witness :
    finish .sip24
      (write .sip24
        (new_with_keys 0x0706050403020100 0x0f0e0d0c0b0a0908)
        (List.range 8)) = sipRefVectors.getD 8 0 :=
  sip24_reference_vectors 8 (by decide)

/-- C3: Finalization procedure — `finish` forms
`b = (low 8 bits of total length) <<< 56 ||| tail`, XORs `b` into `v3`,
runs the compression round `c` times, XORs `b` into `v0`, then XORs `0xFF`
into `v2`, runs the compression round `d` times, and returns
`v0 ^^^ v1 ^^^ v2 ^^^ v3`. -/
theorem finish_finalization (v : Variant) (h : HashBase) :
    finish v h =
      (let b := ((h.length % 2 ^ 64) &&& 0xff) <<< 56 ||| h.tail
       let s1 := compress^[cCount v] { h.state with v3 := h.state.v3 ^^^ b }
       let s2 := { s1 with v0 := s1.v0 ^^^ b }
       let s3 := compress^[dCount v] { s2 with v2 := s2.v2 ^^^ 0xff }
       s3.v0 ^^^ s3.v1 ^^^ s3.v2 ^^^ s3.v3) := by
  cases v <;> rfl

/-- C4: Compression round — one SipRound is exactly the stated ARX
sequence with 64-bit wraparound additions; the 1-3 variant applies it once
per word and three times at finalization, the 2-4 variant twice per word
and four times at finalization. -/
theorem compress_round_spec :
    (∀ s : State, compress s =
      (let v0 := (s.v0 + s.v1) % 2 ^ 64
       let v1 := ((s.v1 <<< 13) % 2 ^ 64) ||| ((s.v1 % 2 ^ 64) >>> 51)
       let v1 := v1 ^^^ v0
       let v0 := ((v0 <<< 32) % 2 ^ 64) ||| ((v0 % 2 ^ 64) >>> 32)
       let v2 := (s.v2 + s.v3) % 2 ^ 64
       let v3 := ((s.v3 <<< 16) % 2 ^ 64) ||| ((s.v3 % 2 ^ 64) >>> 48)
       let v3 := v3 ^^^ v2
       let v0 := (v0 + v3) % 2 ^ 64
       let v3 := ((v3 <<< 21) % 2 ^ 64) ||| ((v3 % 2 ^ 64) >>> 43)
       let v3 := v3 ^^^ v0
       let v2 := (v2 + v1) % 2 ^ 64
       let v1 := ((v1 <<< 17) % 2 ^ 64) ||| ((v1 % 2 ^ 64) >>> 47)
       let v1 := v1 ^^^ v2
       let v2 := ((v2 <<< 32) % 2 ^ 64) ||| ((v2 % 2 ^ 64) >>> 32)
       { v0 := v0, v2 := v2, v1 := v1, v3 := v3 })) ∧
    (∀ s : State, Variant.c_rounds .sip13 s = compress^[1] s) ∧
    (∀ s : State, Variant.d_rounds .sip13 s = compress^[3] s) ∧
    (∀ s : State, Variant.c_rounds .sip24 s = compress^[2] s) ∧
    (∀ s : State, Variant.d_rounds .sip24 s = compress^[4] s) :=
  ⟨fun _ => rfl, fun _ => rfl, fun _ => rfl, fun _ => rfl, fun _ => rfl⟩

/-- C5 counterexample: the claim's parenthetical derivation fails — with
key `(0, 0)`, the initial `v0` produced by `new_with_keys` is not
`k0 ^^^ (first 8-byte chunk of the string as a little-endian word)`
(the chunk read little-endian is `0x75657370656d6f73`, while the code's
constant is the big-endian reading `0x736f6d6570736575`). -/
theorem state_init_le_counterexample :
    ¬ ((new_with_keys 0 0).state.v0 = 0 ^^^ initWordLE 0) := by
  decide

/-- C5 (amended): constructing a hasher with key `(k0, k1)` sets
`v0 = k0 ^^^ 0x736f6d6570736575`, `v1 = k1 ^^^ 0x646f72616e646f6d`,
`v2 = k0 ^^^ 0x6c7967656e657261`, `v3 = k1 ^^^ 0x7465646279746573`
(the ASCII string `somepseudorandomlygeneratedbytes` split into 8-byte
chunks each read as a big-endian word), with length 0 and an empty tail;
identical keys always produce identical initial state. -/
theorem state_init (k0 k1 : Nat) :
    new_with_keys k0 k1 =
      { k0 := k0, k1 := k1, length := 0
        state := { v0 := k0 ^^^ 0x736f6d6570736575
                   v2 := k0 ^^^ 0x6c7967656e657261
                   v1 := k1 ^^^ 0x646f72616e646f6d
                   v3 := k1 ^^^ 0x7465646279746573 }
        tail := 0, ntail := 0 } ∧
    (0x736f6d6570736575 : Nat) = initWordBE 0 ∧
    (0x646f72616e646f6d : Nat) = initWordBE 1 ∧
    (0x6c7967656e657261 : Nat) = initWordBE 2 ∧
    (0x7465646279746573 : Nat) = initWordBE 3 :=
  ⟨rfl, by decide, by decide, by decide, by decide⟩

/-- C6: `finish` is a read-only query — a `finish` call leaves the hasher
object exactly as it was (the Rust receiver is `&self`), so repeated calls
return the same digest and later `write` calls behave as if `finish` had
never been called. -/
theorem finish_read_only (v : Variant) (h : HashBase) :
    (finishCall v h).2 = h ∧
    (finishCall v (finishCall v h).2).1 = (finishCall v h).1 ∧
    (∀ data, write v (finishCall v h).2 data = write v h data) :=
  ⟨rfl, rfl, fun _ => rfl⟩

/-- C7: a `write` call whose input length is strictly less than
`8 - ntail` performs no compression: the lanes are unchanged, the tail
word is extended by the input bytes little-endian, `ntail` grows by the
input length, and the length counter is incremented. -/
theorem short_input_write_no_compress (v : Variant) (h : HashBase)
    (data : List Nat) (hw : Wf h) (hlen : data.length < 8 - h.ntail) :
    write v h data =
      { h with length := (h.length + data.length) % 2 ^ 64
               tail := h.tail ||| leval data 0 data.length <<< (8 * h.ntail)
               ntail := h.ntail + data.length } := by
  obtain ⟨h8, h0, hL⟩ := hw
  rw [write_eq_foldl v h data ⟨h8, h0, hL⟩]
  exact foldl_writeByte_small v data h (by omega) hL

theorem short_input_write_no_compress_witness :
    write .sip24 (new_with_keys 1 2) [3, 4, 5] =
      { new_with_keys 1 2 with
          length := ((new_with_keys 1 2).length + 3) % 2 ^ 64
          tail := (new_with_keys 1 2).tail |||
            leval [3, 4, 5] 0 3 <<< (8 * (new_with_keys 1 2).ntail)
          ntail := (new_with_keys 1 2).ntail + 3 } :=
  short_input_write_no_compress .sip24 (new_with_keys 1 2) [3, 4, 5]
    (new_with_keys_wf 1 2) (by decide)

/-- C8: the running length counter is incremented by every `write` and
`short_write` call by the byte count of that call, wrapping modulo
`2 ^ 64` silently; and `finish` depends only on the low 8 bits of the
counter. -/
theorem length_counter :
    (∀ (v : Variant) (h : HashBase) (data : List Nat),
      (write v h data).length = (h.length + data.length) % 2 ^ 64) ∧
    (∀ (v : Variant) (h : HashBase) (msg : List Nat),
      (short_write v h msg).length = (h.length + msg.length) % 2 ^ 64) ∧
    (∀ (v : Variant) (h : HashBase) (l : Nat),
      l % 256 = h.length % 256 →
      finish v { h with length := l } = finish v h) := by
  have key : ∀ m : Nat, m % 2 ^ 64 &&& 0xff = m % 256 := by
    intro m
    have e1 : (0xff : Nat) = 2 ^ 8 - 1 := by norm_num
    rw [e1, Nat.and_pow_two_sub_one_eq_mod, Nat.mod_mod_of_dvd]
    exact pow_dvd_pow 2 (by norm_num)
  refine ⟨?_, ?_, ?_⟩
  · intro v h data
    rw [write]
    by_cases hnt : h.ntail = 0
    · rw [if_neg (by simp [hnt]), writeWords]
    · rw [if_pos (by simp [hnt])]
      by_cases hs : data.length < 8 - h.ntail
      · rw [if_pos hs]
      · rw [if_neg hs, writeWords]
  · intro v h msg
    rw [short_write]
    by_cases hfill : min msg.length (8 - h.ntail) = 8
    · rw [if_pos hfill]
    · rw [if_neg hfill]
      by_cases hs : msg.length < 8 - h.ntail
      · rw [if_pos hs]
      · rw [if_neg hs]
  · intro v h l hl
    simp only [finish]
    rw [key, key, hl]

theorem length_counter_witness :
    finish .sip24 { new_with_keys 0 0 with length := 256 } =
      finish .sip24 (new_with_keys 0 0) :=
  length_counter.2.2 .sip24 (new_with_keys 0 0) 256 (by decide)

/-- C9: the single-byte and machine-word write entries are semantically
identical to the general `write` path — on every well-formed hasher state,
`write_u8 b` produces exactly the state `write [b]` does, and
`write_usize i` produces exactly the state `write` of the word's
little-endian byte image does. -/
theorem short_path_equivalence (v : Variant) (h : HashBase) (hw : Wf h) :
    (∀ b, write_u8 v h b = write v h [b]) ∧
    (∀ i, write_usize v h i = write v h (usizeBytes i)) := by
  constructor
  · intro b
    rw [write_u8, short_write_eq_foldl v h [b] hw (by simp),
      write_eq_foldl v h [b] hw]
  · intro i
    rw [write_usize,
      short_write_eq_foldl v h (usizeBytes i) hw (by simp [usizeBytes]),
      write_eq_foldl v h (usizeBytes i) hw]

theorem short_path_equivalence_witness :
    write_u8 .sip24 (new_with_keys 3 4) 5 =
        write .sip24 (new_with_keys 3 4) [5] ∧
      write_usize .sip24 (new_with_keys 3 4) 77 =
        write .sip24 (new_with_keys 3 4) (usizeBytes 77) :=
  ⟨(short_path_equivalence .sip24 (new_with_keys 3 4)
      (new_with_keys_wf 3 4)).1 5,
   (short_path_equivalence .sip24 (new_with_keys 3 4)
      (new_with_keys_wf 3 4)).2 77⟩

/-- C10: tail-buffer invariant — after construction and after every
`write`, `write_u8` or `write_usize` call on byte inputs, `ntail < 8`
holds and all bits of the tail word at positions `8 * ntail` and above are
zero (`tail < 2 ^ (8 * ntail)`). -/
theorem tail_buffer_invariant :
    (∀ k0 k1, Inv (new_with_keys k0 k1)) ∧
    (∀ (v : Variant) (h : HashBase) (data : List Nat), Inv h →
      (∀ b ∈ data, b < 256) → Inv (write v h data)) ∧
    (∀ (v : Variant) (h : HashBase) (b : Nat), Inv h → b < 256 →
      Inv (write_u8 v h b)) ∧
    (∀ (v : Variant) (h : HashBase) (i : Nat), Inv h →
      Inv (write_usize v h i)) := by
  refine ⟨?_, ?_, ?_, ?_⟩
  · intro k0 k1
    exact ⟨by simp [new_with_keys, reset], by simp [new_with_keys, reset]⟩
  · intro v h data hi hb
    exact write_inv v h data hi hb
  · intro v h b hi hblt
    exact short_write_inv v h [b] hi (by simpa using hblt) (by simp)
  · intro v h i hi
    exact short_write_inv v h (usizeBytes i) hi (usizeBytes_lt i)
      (by simp [usizeBytes])

theorem tail_buffer_invariant_witness :
    Inv (write .sip24 (new_with_keys 0 0) [1, 2, 3]) :=
  tail_buffer_invariant.2.1 .sip24 (new_with_keys 0 0) [1, 2, 3]
    (by decide) (by decide)

end SipRs
